import Mathlib

/-!
Verification of the SPtrader Dukascopy ingestion pipeline.

Shallow embedding of the Python sources:
  * `tools/data-feeds/dukascopy_importer.py`   (class `DukascopyDownloader`)
  * `data_feeds/dukascopy/download_and_import.py` (class `DukascopyManager`)
  * `tools/data-feeds/dukascopy_loader.py`
  * `data_feeds/dukascopy_to_ilp_batched.py`
  * `data_feeds/automated_data_loader.py`

Conventions of the embedding:
  * Byte strings are `List ℕ` whose elements are byte values (0..255).
  * Prices and volumes are embedded as exact rationals `ℚ`; the Python
    floats `bid = bidScaled / 100000.0` etc. are modelled by exact
    division in `ℚ`.
  * Dates are UTC day indices `d : ℕ`; day 0 is taken to be a Monday, so
    `d % 7` is Python's `datetime.weekday()` (Monday = 0) and
    `d % 7 + 1` is `isoweekday()` (Monday = 1).  Timestamps are
    milliseconds: `d * 86400000 + hour * 3600000 + offset`.
  * LZMA decompression is external to the repository; the decoder is a
    function of the decompression outcome `Option (List ℕ)` (`none`
    models `lzma.decompress` raising).
  * Recursions whose Python originals are `while`/`range` loops are
    written with explicit structural fuel so every definition reduces
    by `decide`/`rfl`.
-/

/-- Big-endian unsigned 32-bit integer from four bytes, as read by
`struct.unpack('>IIIff', ...)` for the three `I` fields. -/
def beU32 (b0 b1 b2 b3 : ℕ) : ℕ :=
  ((b0 * 256 + b1) * 256 + b2) * 256 + b3

/-- Value of an IEEE-754 binary32 bit pattern as an exact rational, as
read by `struct.unpack('>IIIff', ...)` for the two `f` fields.  Every
finite float value is an exact rational; the non-finite patterns
(exponent 255: infinities and NaNs) have no rational value and are
mapped to `0` here — no claim touches them. -/
def decodeF32 (bits : ℕ) : ℚ :=
  let s : ℕ := bits / 2 ^ 31 % 2
  let e : ℕ := bits / 2 ^ 23 % 2 ^ 8
  let m : ℕ := bits % 2 ^ 23
  let mag : ℚ :=
    if e = 0 then (m : ℚ) / 2 ^ 149
    else if e = 255 then 0
    else if 150 ≤ e then ((2 ^ 23 + m : ℕ) : ℚ) * 2 ^ (e - 150)
    else ((2 ^ 23 + m : ℕ) : ℚ) / 2 ^ (150 - e)
  if s = 1 then -mag else mag

/-- One decoded tick tuple, in the order the Python code appends it:
`(time_delta, bid, ask, bid_volume, ask_volume)`
(`dukascopy_importer.py` line 119). -/
structure RawTick where
  timeDelta : ℕ
  bid : ℚ
  ask : ℚ
  bidVolume : ℚ
  askVolume : ℚ
  deriving DecidableEq, Repr

/-- Decode one 20-byte wire record
(`struct.unpack('>IIIff', decompressed[i:i+20])` plus the scaling and
the ask/bid swap, `dukascopy_importer.py` lines 110-119).  The wire
order is time(4) + ask(4) + bid(4) + ask_vol(4) + bid_vol(4); the
output tuple carries bid before ask and bid_volume before ask_volume. -/
def parseRecord (bs : List ℕ) : RawTick :=
  let g : ℕ → ℕ := fun i => bs.getD i 0
  { timeDelta := beU32 (g 0) (g 1) (g 2) (g 3)
    bid := (beU32 (g 8) (g 9) (g 10) (g 11) : ℚ) / 100000
    ask := (beU32 (g 4) (g 5) (g 6) (g 7) : ℚ) / 100000
    bidVolume := decodeF32 (beU32 (g 16) (g 17) (g 18) (g 19))
    askVolume := decodeF32 (beU32 (g 12) (g 13) (g 14) (g 15)) }

/-- Fueled worker for `parseTicks`; each step consumes 20 bytes, so
fuel `bs.length` always suffices. -/
def parseTicksAux : ℕ → List ℕ → List RawTick
  | 0, _ => []
  | fuel + 1, bs =>
    if 20 ≤ bs.length then
      parseRecord (bs.take 20) :: parseTicksAux fuel (bs.drop 20)
    else []

/-- The parsing loop of `decompress_tick_data`
(`for i in range(0, len(decompressed), tick_size): if i + tick_size <= len`):
consecutive 20-byte records from the front, trailing partial record
discarded. -/
def parseTicks (bs : List ℕ) : List RawTick :=
  parseTicksAux bs.length bs

/-- Model of `decompress_tick_data` (`dukascopy_importer.py` lines 97-124,
byte-identical copy in `download_and_import.py` lines 218-245) as a
function of the LZMA decompression outcome: `none` models
`lzma.decompress` raising, which the `except` arm turns into `[]`. -/
def decompress_tick_data (d : Option (List ℕ)) : List RawTick :=
  match d with
  | none => []
  | some bs => parseTicks bs

/-- Model of `determine_trading_session` (`dukascopy_importer.py` lines 179-196),
the literal if/elif chain. -/
def determine_trading_session (hour : ℕ) : String :=
  if 0 ≤ hour ∧ hour < 6 then "SYDNEY_TOKYO"
  else if hour = 8 then "TOKYO_LONDON"
  else if 13 ≤ hour ∧ hour < 17 then "LONDON_NEW_YORK"
  else if 21 ≤ hour ∨ hour < 6 then "SYDNEY"
  else if 0 ≤ hour ∧ hour < 9 then "TOKYO"
  else if 8 ≤ hour ∧ hour < 17 then "LONDON"
  else if 13 ≤ hour ∧ hour < 22 then "NEW_YORK"
  else "CLOSED"

/-- Model of `is_market_open` (`dukascopy_importer.py` lines 198-207; identical
copy in `download_and_import.py` lines 313-322).  `day_of_week` is an
ISO weekday (Monday = 1 .. Sunday = 7). -/
def is_market_open (hour day_of_week : ℕ) : Bool :=
  if day_of_week = 5 then decide (hour < 22)
  else if day_of_week = 6 then false
  else if day_of_week = 7 then decide (22 ≤ hour)
  else true

/-- One enriched tick row, the dict built in `process_hour_ticks`
(`dukascopy_importer.py` lines 159-173).  The timestamp is UTC
milliseconds. -/
structure TickRecord where
  timestampMs : ℕ
  symbol : String
  bid : ℚ
  ask : ℚ
  price : ℚ
  spread : ℚ
  volume : ℚ
  bidVolume : ℚ
  askVolume : ℚ
  hourOfDay : ℕ
  dayOfWeek : ℕ
  tradingSession : String
  marketOpen : Bool
  deriving DecidableEq, Repr

/-- Build one record from a valid tick, mirroring the loop body of
`process_hour_ticks` (`dukascopy_importer.py` lines 141-173):
`timestamp = base_time + timedelta(milliseconds=time_delta)` with
`base_time = datetime(date, hour, tz=utc)`, derived mid/spread/volume,
and session metadata computed from the timestamp's own hour and ISO
weekday. -/
def enrichTick (symbol : String) (day : ℕ) (hour : ℕ) (t : RawTick) : TickRecord :=
  let ts := day * 86400000 + hour * 3600000 + t.timeDelta
  let hourUtc := ts / 3600000 % 24
  let dow := ts / 86400000 % 7 + 1
  { timestampMs := ts
    symbol := symbol
    bid := t.bid
    ask := t.ask
    price := (t.bid + t.ask) / 2
    spread := t.ask - t.bid
    volume := t.bidVolume + t.askVolume
    bidVolume := t.bidVolume
    askVolume := t.askVolume
    hourOfDay := hourUtc
    dayOfWeek := dow
    tradingSession := determine_trading_session hourUtc
    marketOpen := is_market_open hourUtc dow }

/-- The `for tick in ticks` loop of `process_hour_ticks`
(`dukascopy_importer.py` lines 138-175): ticks with
`bid <= 0 or ask <= 0 or bid >= ask` are skipped (`continue`), the
rest are enriched in order. -/
def processTicksLoop (symbol : String) (day hour : ℕ) : List RawTick → List TickRecord
  | [] => []
  | t :: rest =>
    if t.bid ≤ 0 ∨ t.ask ≤ 0 ∨ t.bid ≥ t.ask then
      processTicksLoop symbol day hour rest
    else
      enrichTick symbol day hour t :: processTicksLoop symbol day hour rest

/-- Model of `process_hour_ticks` (`dukascopy_importer.py` lines 126-177) as a
function of the decompression outcome: decode, early-return on empty,
then the enrichment loop. -/
def process_hour_ticks (symbol : String) (day hour : ℕ)
    (d : Option (List ℕ)) : List TickRecord :=
  let ticks := decompress_tick_data d
  if ticks = [] then []
  else processTicksLoop symbol day hour ticks

/-- A tick passes the enricher's sanity check
(the negation of `bid <= 0 or ask <= 0 or bid >= ask`). -/
def validTick (t : RawTick) : Bool :=
  decide (0 < t.bid) && decide (0 < t.ask) && decide (t.bid < t.ask)

/-- Big-endian byte encoding of a 32-bit value (the synthetic-blob
builder for the decoder round-trip; inverse of `beU32` below 2^32). -/
def encodeBE32 (n : ℕ) : List ℕ :=
  [n / 2 ^ 24 % 256, n / 2 ^ 16 % 256, n / 2 ^ 8 % 256, n % 256]

/-- One 20-byte wire record before decoding, in wire field order:
u32 time-offset-ms, u32 ask*100000, u32 bid*100000, f32 ask-volume
bits, f32 bid-volume bits. -/
structure WireTick where
  timeDelta : ℕ
  askScaled : ℕ
  bidScaled : ℕ
  askVolBits : ℕ
  bidVolBits : ℕ
  deriving DecidableEq, Repr

/-- All five wire fields fit in 32 bits. -/
def WireTick.valid (w : WireTick) : Prop :=
  w.timeDelta < 2 ^ 32 ∧ w.askScaled < 2 ^ 32 ∧ w.bidScaled < 2 ^ 32 ∧
    w.askVolBits < 2 ^ 32 ∧ w.bidVolBits < 2 ^ 32

instance (w : WireTick) : Decidable w.valid := by
  unfold WireTick.valid; infer_instance

/-- Serialize one wire record to its 20 bytes. -/
def encodeWire (w : WireTick) : List ℕ :=
  encodeBE32 w.timeDelta ++ encodeBE32 w.askScaled ++ encodeBE32 w.bidScaled ++
    encodeBE32 w.askVolBits ++ encodeBE32 w.bidVolBits

/-- The RawTick a wire record denotes: scaled prices divided by 100000,
bid and ask (and the volumes) swapped into tuple order. -/
def wireToRaw (w : WireTick) : RawTick :=
  { timeDelta := w.timeDelta
    bid := (w.bidScaled : ℚ) / 100000
    ask := (w.askScaled : ℚ) / 100000
    bidVolume := decodeF32 w.bidVolBits
    askVolume := decodeF32 w.askVolBits }

/-- Cache / fetch key: (instrument, UTC day index, hour).  The Python
code derives the cache file name deterministically from this triple
(`f"{instrument}_{date:%Y%m%d}_{hour:02d}.bi5"`). -/
abbrev FetchKey := String × ℕ × ℕ

/-- Outcome of `self.session.get(url, timeout=...)`: a response with a
status code and body, or a raised exception. -/
inductive NetResult where
  | ok (status : ℕ) (content : List ℕ)
  | err
  deriving DecidableEq

/-- Model of `download_hour_data` (`dukascopy_importer.py` lines 68-95, identical
logic in `download_and_import.py` lines 189-216) as a state-passing
function: input the current cache contents and the network's response
map, output (returned blob, new cache contents, whether a network
request was issued). -/
def download_hour_data (cache : FetchKey → Option (List ℕ))
    (net : FetchKey → NetResult) (k : FetchKey) :
    Option (List ℕ) × (FetchKey → Option (List ℕ)) × Bool :=
  match cache k with
  | some blob => (some blob, cache, false)
  | none =>
    match net k with
    | .ok status content =>
      if status = 200 ∧ 0 < content.length then
        (some content, fun k' => if k' = k then some content else cache k', true)
      else (none, cache, true)
    | .err => (none, cache, true)

/-- Fueled chunking of a list into pieces of 1000
(`range(0, len(values), chunk_size)` with `chunk_size = 1000` in
`insert_batch`, `dukascopy_importer.py` lines 288-291). -/
def chunks1000Aux : ℕ → List α → List (List α)
  | 0, _ => []
  | fuel + 1, l =>
    if l.isEmpty then []
    else l.take 1000 :: chunks1000Aux fuel (l.drop 1000)

/-- Chunks of 1000; fuel `l.length` suffices because every step
consumes at least one element. -/
def chunks1000 (l : List α) : List (List α) :=
  chunks1000Aux l.length l

/-- The chunk-insert loop of `insert_batch`
(`dukascopy_importer.py` lines 290-298): execute the chunks in order;
`execute_query` returning `None` (modelled `exec i = false` for the
i-th issued call) aborts with `False`.  Returns (overall success,
number of bulk-insert calls issued). -/
def insertLoop (exec : ℕ → Bool) : List (List α) → ℕ → Bool × ℕ
  | [], _ => (true, 0)
  | _ :: rest, idx =>
    if exec idx then
      let r := insertLoop exec rest (idx + 1)
      (r.1, r.2 + 1)
    else (false, 1)

/-- Model of `insert_batch` (`dukascopy_importer.py` lines 272-300): empty input
is an immediate `True` with no calls; otherwise the records are cut
into chunks of 1000 and inserted sequentially. -/
def insert_batch (records : List α) (exec : ℕ → Bool) : Bool × ℕ :=
  if records.isEmpty then (true, 0)
  else insertLoop exec (chunks1000 records) 0

/-- On-disk contents of the progress file over the course of one
`save_progress(progress)` call (`dukascopy_loader.py` lines 60-63;
same shape in `download_and_import.py` `save_state` lines 176-179 and
`automated_data_loader.py` lines 39-42).  The Python body is
`with open(STATE_FILE, 'w') as f: json.dump(progress, f, indent=2)`:
`open(..., 'w')` truncates the file in place, then the serialized
mapping is written.  `old` is the file's previous contents, `new` the
serialization being written; the middle state is the truncated file. -/
def save_progress_states (old new : String) : List String :=
  [old, "", new]

/-- Modelled from the spec: the Progress Store save the spec describes
("write to a temporary location then rename").  The target file is
untouched while the temporary file is written, and the rename replaces
it atomically, so the target only ever holds the old or the new
contents. -/
def atomic_save_states (old new : String) : List String :=
  [old, old, new]

/-- External world of a run, fixed across runs ("no data change"):
the vendor's responses, the LZMA algorithm, and the store's reactions
to insert calls. -/
structure Env where
  /-- Outcome of `session.get` for each (instrument, day, hour). -/
  net : FetchKey → NetResult
  /-- `lzma.decompress`: `none` models a raised `LZMAError`. -/
  decomp : List ℕ → Option (List ℕ)
  /-- Result of one HTTP `execute_query` bulk-insert call, as a
  function of the inserted chunk (`None` from `execute_query` is
  `false`). -/
  insChunk : List TickRecord → Bool
  /-- Result of `insert_batch_ilp` (the Go ILP ingestion service) for
  a record batch. -/
  ins : List TickRecord → Bool
  /-- Result of the loader's `send_to_ilp` subprocess call. -/
  ilp : List TickRecord → Bool

/-- Mutable world state threaded through a run: the on-disk blob
cache, the rows accumulated in the store (HTTP SQL path and ILP path
kept separately), the manager's persisted `completed_batches` list,
and a count of network requests issued. -/
structure RunSt where
  cache : FetchKey → Option (List ℕ)
  store : List TickRecord
  ilpStore : List TickRecord
  completed : List String
  netCalls : ℕ

/-- The chunk loop of the importer's `insert_batch` with its effect on
the store: each successful `execute_query` appends its chunk's rows;
the first failure aborts with `False`, leaving earlier chunks
inserted. -/
def insertChunksStore (insChunk : List TickRecord → Bool) :
    List (List TickRecord) → List TickRecord → List TickRecord × Bool
  | [], store => (store, true)
  | c :: rest, store =>
    if insChunk c then insertChunksStore insChunk rest (store ++ c)
    else (store, false)

/-- Model of `insert_batch` (`dukascopy_importer.py` lines 272-300) with its
store effect: empty input is a no-op `True`; otherwise chunks of 1000
are inserted in order until one fails. -/
def insert_batch_store (insChunk : List TickRecord → Bool)
    (records : List TickRecord) (store : List TickRecord) :
    List TickRecord × Bool :=
  if records.isEmpty then (store, true)
  else insertChunksStore insChunk (chunks1000 records) store

/-- Key string `f"{symbol}_{start.date()}_{end.date()}"`, used both as
the manager's batch key (`download_and_import.py` line 604) and the
loader's job key (`dukascopy_loader.py` line 125); dates are rendered
as day indices here. -/
def rangeKey (sym : String) (a b : ℕ) : String :=
  sym ++ "_" ++ toString a ++ "_" ++ toString b

/-- The inclusive day range `[a, b]`. -/
def dayRange (a b : ℕ) : List ℕ :=
  (List.range (b + 1 - a)).map (fun i => a + i)

namespace Importer

/-- Model of `DukascopyDownloader.process_single_hour`
(`dukascopy_importer.py` lines 352-369): fetch, decode+enrich, insert
via the chunked HTTP `insert_batch`.  `some n` is a normal return of
`n` ticks; `none` models the raised
`Exception("Failed to insert batch")`. -/
def process_single_hour (env : Env) (st : RunSt) (sym : String)
    (day hour : ℕ) : RunSt × Option ℕ :=
  let r := download_hour_data st.cache env.net (sym, day, hour)
  let st1 : RunSt :=
    { st with cache := r.2.1, netCalls := st.netCalls + (if r.2.2 then 1 else 0) }
  match r.1 with
  | none => (st1, some 0)
  | some blob =>
    if blob.isEmpty then (st1, some 0)
    else
      let records := process_hour_ticks sym day hour (env.decomp blob)
      if records.isEmpty then (st1, some 0)
      else
        let ins := insert_batch_store env.insChunk records st1.store
        let st2 : RunSt := { st1 with store := ins.1 }
        if ins.2 then (st2, some records.length) else (st2, none)

/-- Hour tasks of `DukascopyDownloader.download_date_range`
(`dukascopy_importer.py` lines 307-315): all 24 hours of every
weekday (`current.weekday() < 5`) in the inclusive range. -/
def rangeTasks (s e : ℕ) : List (ℕ × ℕ) :=
  ((dayRange s e).filter (fun d => d % 7 < 5)).flatMap
    (fun d => (List.range 24).map (fun h => (d, h)))

/-- Model of `DukascopyDownloader.download_date_range`
(`dukascopy_importer.py` lines 302-350).  The thread pool is modelled
by processing the submitted tasks sequentially in submission order; a
task's raised exception is caught and counted (`error_count`).
Returns the final state and `total_ticks`. -/
def download_date_range (env : Env) (inst : String) (s e : ℕ)
    (st : RunSt) : RunSt × ℕ :=
  (rangeTasks s e).foldl
    (fun acc task =>
      let r := process_single_hour env acc.1 inst task.1 task.2
      match r.2 with
      | some n => (r.1, acc.2 + n)
      | none => (r.1, acc.2))
    (st, 0)

end Importer

namespace Manager

/-- Model of `DukascopyManager.process_single_hour`
(`download_and_import.py` lines 490-507): fetch, decode+enrich, then
`insert_batch`, which with the default config (`ilp.enabled = True`)
is `insert_batch_ilp` — one all-or-nothing call to the Go ILP
service.  `none` models the raised
`Exception("Failed to insert batch")`. -/
def process_single_hour (env : Env) (st : RunSt) (sym : String)
    (day hour : ℕ) : RunSt × Option ℕ :=
  let r := download_hour_data st.cache env.net (sym, day, hour)
  let st1 : RunSt :=
    { st with cache := r.2.1, netCalls := st.netCalls + (if r.2.2 then 1 else 0) }
  match r.1 with
  | none => (st1, some 0)
  | some blob =>
    if blob.isEmpty then (st1, some 0)
    else
      let records := process_hour_ticks sym day hour (env.decomp blob)
      if records.isEmpty then (st1, some 0)
      else if env.ins records then
        ({ st1 with ilpStore := st1.ilpStore ++ records }, some records.length)
      else (st1, none)

/-- Hour tasks of one batch (`download_and_import.py` lines 613-622).
The batch datetimes are midnights, so the
`weekday == 6 and current.hour >= 22` disjunct is always false and
the filter reduces to `weekday < 5`. -/
def batchTasks (bstart bend : ℕ) : List (ℕ × ℕ) :=
  ((dayRange bstart bend).filter (fun d => d % 7 < 5)).flatMap
    (fun d => (List.range 24).map (fun h => (d, h)))

/-- The worker-pool section of one batch
(`download_and_import.py` lines 626-652), tasks processed
sequentially in submission order.  Returns (state, error_count,
batch_ticks). -/
def runBatch (env : Env) (sym : String) (bstart bend : ℕ) (st : RunSt) :
    RunSt × ℕ × ℕ :=
  (batchTasks bstart bend).foldl
    (fun acc task =>
      let r := process_single_hour env acc.1 sym task.1 task.2
      match r.2 with
      | some n => (r.1, acc.2.1, acc.2.2 + n)
      | none => (r.1, acc.2.1 + 1, acc.2.2))
    (st, 0, 0)

/-- Fueled batch partition of `download_date_range`
(`download_and_import.py` lines 589-594):
`[start, min(start + batch_days - 1, end)]`, advancing past each
batch.  Fuel `e + 1 - s` suffices whenever `batch_days ≥ 1`. -/
def mkBatchesAux (bd e : ℕ) : ℕ → ℕ → List (ℕ × ℕ)
  | 0, _ => []
  | fuel + 1, cur =>
    if cur ≤ e then
      (cur, min (cur + bd - 1) e) :: mkBatchesAux bd e fuel (min (cur + bd - 1) e + 1)
    else []

/-- The batch list `download_date_range` iterates over. -/
def mkBatches (s e bd : ℕ) : List (ℕ × ℕ) :=
  mkBatchesAux bd e (e + 1 - s) s

/-- The per-batch loop of `download_date_range`
(`download_and_import.py` lines 602-665): a batch whose key is
already in `state['completed_batches']` is skipped untouched;
otherwise its hours are processed, and on zero errors the key is
appended to the completed list (and the state persisted by
`save_state`), else the batch is recorded as failed. -/
def ddrLoop (env : Env) (sym : String) :
    List (ℕ × ℕ) → RunSt → List (ℕ × ℕ) → RunSt × List (ℕ × ℕ)
  | [], st, failed => (st, failed)
  | (bs, be) :: rest, st, failed =>
    if rangeKey sym bs be ∈ st.completed then ddrLoop env sym rest st failed
    else
      let r := runBatch env sym bs be st
      if r.2.1 = 0 then
        ddrLoop env sym rest
          { r.1 with completed := r.1.completed ++ [rangeKey sym bs be] } failed
      else ddrLoop env sym rest r.1 (failed ++ [(bs, be)])

/-- Model of `DukascopyManager.download_date_range`
(`download_and_import.py` lines 580-684): partition into batches,
process them sequentially, return the final state and the failed
batches reported at run end. -/
def download_date_range (env : Env) (sym : String) (s e bd : ℕ)
    (st : RunSt) : RunSt × List (ℕ × ℕ) :=
  ddrLoop env sym (mkBatches s e bd) st []

end Manager

namespace Loader

/-- Pointwise update of the progress mapping
(`progress[job_key] = batch_end.isoformat()`; values are day
indices here). -/
def setKey (p : String → Option ℕ) (k : String) (v : ℕ) : String → Option ℕ :=
  fun k' => if k' = k then some v else p k'

/-- Deletion `del progress[job_key]` on the mapping. -/
def eraseKey (p : String → Option ℕ) (k : String) : String → Option ℕ :=
  fun k' => if k' = k then none else p k'

/-- Model of `download_single_day` (`dukascopy_loader.py` lines 94-119): the 24
hourly fetch+enrich steps of one day, records concatenated in hour
order.  Per-hour exceptions are caught; the modelled functions are
total, so the `except` arm is never taken. -/
def download_single_day (env : Env) (sym : String) (day : ℕ)
    (st : RunSt) : RunSt × List TickRecord :=
  (List.range 24).foldl
    (fun acc h =>
      let r := download_hour_data acc.1.cache env.net (sym, day, h)
      let st1 : RunSt :=
        { acc.1 with
          cache := r.2.1
          netCalls := acc.1.netCalls + (if r.2.2 then 1 else 0) }
      match r.1 with
      | none => (st1, acc.2)
      | some blob =>
        if blob.isEmpty then (st1, acc.2)
        else (st1, acc.2 ++ process_hour_ticks sym day h (env.decomp blob)))
    (st, [])

/-- The inner day loop of one batch (`dukascopy_loader.py` lines
155-158), concatenating `download_single_day` over the batch's days. -/
def batchRecords (env : Env) (sym : String) (bstart bend : ℕ)
    (st : RunSt) : RunSt × List TickRecord :=
  (dayRange bstart bend).foldl
    (fun acc d =>
      let r := download_single_day env sym d acc.1
      (r.1, acc.2 ++ r.2))
    (st, [])

/-- Result of one `process_date_range` run. -/
structure LoadResult where
  /-- The persisted progress mapping when the run ends. -/
  progress : String → Option ℕ
  /-- The failed-batch list reported at run end. -/
  failed : List (ℕ × ℕ)
  /-- The day the run's batch loop started from (resume point). -/
  startedFrom : ℕ
  /-- `total_ticks`. -/
  totalTicks : ℕ
  /-- Cache / store / network state when the run ends. -/
  st : RunSt

/-- The fueled `while current <= end_date` batch loop of
`process_date_range` (`dukascopy_loader.py` lines 139-181).  Each
iteration pre-downloads the batch range through the importer — note
the source passes the *list* `[symbol]` as the instrument, so the
pre-download uses `"['<symbol>']"` as its instrument string and hence
disjoint cache keys — then collects the batch's records day by day,
sends them to ILP if nonempty, and on success persists
`progress[job_key] = batch_end`.  Fuel `end + 1 - current` suffices
whenever `batch_days ≥ 1`. -/
def loopBatches (env : Env) (sym : String) (e bd : ℕ) (jk : String) :
    ℕ → ℕ → (String → Option ℕ) → RunSt → ℕ → List (ℕ × ℕ) →
    (String → Option ℕ) × RunSt × ℕ × List (ℕ × ℕ)
  | 0, _, p, st, total, failed => (p, st, total, failed)
  | fuel + 1, cur, p, st, total, failed =>
    if cur ≤ e then
      let be := min (cur + bd - 1) e
      let pre := Importer.download_date_range env ("['" ++ sym ++ "']") cur be st
      let r := batchRecords env sym cur be pre.1
      if r.2.isEmpty then
        loopBatches env sym e bd jk fuel (be + 1) p r.1 total failed
      else if env.ilp r.2 then
        loopBatches env sym e bd jk fuel (be + 1) (setKey p jk be)
          { r.1 with ilpStore := r.1.ilpStore ++ r.2 } (total + r.2.length) failed
      else
        loopBatches env sym e bd jk fuel (be + 1) p r.1 total
          (failed ++ [(cur, be)])
    else (p, st, total, failed)

/-- Model of `process_date_range` (`dukascopy_loader.py` lines 121-204): read
the resume point from the progress mapping, run the batch loop, and —
only when no batch failed — delete the job's key from the mapping and
persist the deletion (lines 192-197).  The same resume/cleanup
structure appears in `dukascopy_to_ilp_batched.py` `main`
(lines 71-157). -/
def process_date_range (env : Env) (sym : String) (s e bd : ℕ)
    (p0 : String → Option ℕ) (st0 : RunSt) : LoadResult :=
  let jk := rangeKey sym s e
  let start := match p0 jk with
    | some last => last + 1
    | none => s
  let r := loopBatches env sym e bd jk (e + 1 - start) start p0 st0 0 []
  let pFinal :=
    if r.2.2.2.isEmpty then
      match r.1 jk with
      | some _ => eraseKey r.1 jk
      | none => r.1
    else r.1
  { progress := pFinal
    failed := r.2.2.2
    startedFrom := start
    totalTicks := r.2.2.1
    st := r.2.1 }

end Loader

/-! ## Session classifier and market-hours table (C4) -/

/-- C4: `determine_trading_session` is total and deterministic on hours
0-23 — every hour yields exactly one non-null label — and
`is_market_open` is a pure function of (hour, ISO weekday) with:
Saturday closed at every hour; Friday open iff hour < 22; Sunday open
iff hour ≥ 22; Monday-Thursday open at every hour. -/
theorem session_total_market_open_table :
    (∀ h : ℕ, h < 24 →
      determine_trading_session h ∈
        ["SYDNEY_TOKYO", "TOKYO_LONDON", "LONDON_NEW_YORK", "SYDNEY",
         "TOKYO", "LONDON", "NEW_YORK"] ∧
      determine_trading_session h ≠ "") ∧
    (∀ h : ℕ, is_market_open h 6 = false) ∧
    (∀ h : ℕ, is_market_open h 5 = decide (h < 22)) ∧
    (∀ h : ℕ, is_market_open h 7 = decide (22 ≤ h)) ∧
    (∀ h d : ℕ, 1 ≤ d → d ≤ 4 → is_market_open h d = true) := by
  refine ⟨?_, ?_, ?_, ?_, ?_⟩
  · intro h hh
    interval_cases h <;> exact ⟨by decide, by decide⟩
  · intro h; simp [is_market_open]
  · intro h; simp [is_market_open]
  · intro h; simp [is_market_open]
  · intro h d h1 h4; interval_cases d <;> simp [is_market_open]

/-- Witness for C4 at concrete inputs, including the spec's examples
(Saturday any hour closed; Sunday 23 open; Friday 21 open, 22
closed). -/
theorem session_total_market_open_table_witness :
    determine_trading_session 23 ≠ "" ∧
    is_market_open 14 6 = false ∧
    is_market_open 23 7 = true ∧
    is_market_open 21 5 = true ∧
    is_market_open 22 5 = false ∧
    is_market_open 3 2 = true := by
  have h := session_total_market_open_table
  refine ⟨(h.1 23 (by decide)).2, h.2.1 14, ?_, ?_, ?_, h.2.2.2.2 3 2 (by decide) (by decide)⟩
  · have := h.2.2.2.1 23; simpa using this
  · have := h.2.2.1 21; simpa using this
  · have := h.2.2.1 22; simpa using this

/-! ## Decoder failure handling (C3) -/

/-- Concrete environment whose LZMA decompression always fails. -/
def envDecompFail : Env :=
  { net := fun _ => NetResult.ok 200 [1, 2, 3]
    decomp := fun _ => none
    insChunk := fun _ => true
    ins := fun _ => true
    ilp := fun _ => true }

/-- Empty initial world state. -/
def emptySt : RunSt :=
  { cache := fun _ => none
    store := []
    ilpStore := []
    completed := []
    netCalls := 0 }

/-- C3: a failed decompression yields the empty record sequence rather
than an error: `decompress_tick_data` returns `[]`, the enricher then
produces no records, and the enclosing hour task returns 0 ticks
normally instead of raising, so a corrupt hour never aborts the range
load. -/
theorem decompress_failure_yields_empty :
    decompress_tick_data none = [] ∧
    (∀ (sym : String) (day hour : ℕ), process_hour_ticks sym day hour none = []) ∧
    (∀ (env : Env) (st : RunSt) (sym : String) (day hour : ℕ),
      env.decomp = (fun _ => none) →
      (Manager.process_single_hour env st sym day hour).2 = some 0) := by
  refine ⟨rfl, fun sym day hour => rfl, ?_⟩
  intro env st sym day hour hd
  unfold Manager.process_single_hour
  rcases hr : (download_hour_data st.cache env.net (sym, day, hour)).1 with _ | blob
  · simp [hr]
  · simp only [hr, hd]
    by_cases hb : blob.isEmpty <;>
      simp [hb, process_hour_ticks, decompress_tick_data]

/-- Witness for C3: with an always-failing decompressor the hour task
returns 0 records without raising. -/
theorem decompress_failure_yields_empty_witness :
    (Manager.process_single_hour envDecompFail emptySt "EURUSD" 0 0).2 = some 0 := by
  exact decompress_failure_yields_empty.2.2 envDecompFail emptySt "EURUSD" 0 0 rfl

/-! ## Progress-file save is a direct overwrite, not atomic (C7) -/

/-- C7 counterexample: the save of the progress mapping is not the
atomic temporary-file-then-rename write the claim describes.  After
the `open(STATE_FILE, 'w')` truncation step the progress file is
empty — a state that is neither the old mapping nor the new one — so
a crash at that point leaves a corrupt progress file; the observable
state sequence also differs from the atomic save's. -/
theorem save_progress_not_atomic :
    (save_progress_states "old-mapping-json" "new-mapping-json").get? 1 = some "" ∧
    "" ≠ "old-mapping-json" ∧
    "" ≠ "new-mapping-json" ∧
    save_progress_states "old-mapping-json" "new-mapping-json" ≠
      atomic_save_states "old-mapping-json" "new-mapping-json" := by
  refine ⟨rfl, by decide, by decide, by decide⟩

/-- C7 amended: every save of the progress mapping writes the
serialization directly over the progress file — `open(..., 'w')`
truncates it in place and the data is then written — so a completed
save leaves exactly the new mapping, but a crash between truncation
and write leaves an empty file that is neither the old mapping nor
the new one; there is no temporary-location-then-rename step. -/
theorem save_progress_direct_write :
    ∀ old nw : String,
      save_progress_states old nw = [old, "", nw] ∧
      (save_progress_states old nw).getLast? = some nw ∧
      (old ≠ "" → nw ≠ "" →
        ∃ s ∈ save_progress_states old nw, s ≠ old ∧ s ≠ nw) := by
  intro old nw
  refine ⟨rfl, rfl, fun h1 h2 => ⟨"", ?_, fun hh => h1 hh.symm, fun hh => h2 hh.symm⟩⟩
  simp [save_progress_states]

/-- Witness for the amended C7 at concrete mapping contents. -/
theorem save_progress_direct_write_witness :
    ∃ s ∈ save_progress_states "a" "b", s ≠ "a" ∧ s ≠ "b" :=
  (save_progress_direct_write "a" "b").2.2 (by decide) (by decide)

/-! ## Ingestion-sink chunking (C6) -/

/-- Fuel irrelevance for `chunks1000Aux`: any fuel at least the list
length computes the same chunking. -/
theorem chunks1000Aux_congr :
    ∀ (f1 f2 : ℕ) (l : List α), l.length ≤ f1 → l.length ≤ f2 →
      chunks1000Aux f1 l = chunks1000Aux f2 l := by
  intro f1
  induction f1 with
  | zero =>
    intro f2 l h1 _
    have hl : l = [] := List.length_eq_zero.mp (Nat.le_zero.mp h1)
    subst hl
    cases f2 <;> simp [chunks1000Aux]
  | succ f ih =>
    intro f2 l h1 h2
    cases f2 with
    | zero =>
      have hl : l = [] := List.length_eq_zero.mp (Nat.le_zero.mp h2)
      subst hl
      simp [chunks1000Aux]
    | succ f2' =>
      by_cases he : l.isEmpty
      · simp [chunks1000Aux, he]
      · simp only [chunks1000Aux, he, if_neg, Bool.false_eq_true, not_false_eq_true]
        have hlen : (l.drop 1000).length ≤ f := by
          simp only [List.length_drop]; omega
        have hlen2 : (l.drop 1000).length ≤ f2' := by
          have : 0 < l.length := by
            cases l with
            | nil => simp at he
            | cons a t => simp
          simp only [List.length_drop]; omega
        rw [ih f2' (l.drop 1000) hlen hlen2]

/-- Worker `chunks1000Aux` with sufficient fuel equals `chunks1000`. -/
theorem chunks1000Aux_eq (f : ℕ) (l : List α) (h : l.length ≤ f) :
    chunks1000Aux f l = chunks1000 l :=
  chunks1000Aux_congr f l.length l h le_rfl

/-- A nonempty list's chunking is one chunk of up to 1000 followed by
the chunking of the rest. -/
theorem chunks1000_cons (l : List α) (h : ¬ l.isEmpty) :
    chunks1000 l = l.take 1000 :: chunks1000 (l.drop 1000) := by
  have hpos : 0 < l.length := by
    cases l with
    | nil => simp at h
    | cons a t => simp
  obtain ⟨n, hn⟩ : ∃ n, l.length = n + 1 := ⟨l.length - 1, by omega⟩
  unfold chunks1000
  rw [hn]
  simp only [chunks1000Aux, h, if_neg, Bool.false_eq_true, not_false_eq_true]
  rw [chunks1000Aux_eq n (l.drop 1000) (by simp only [List.length_drop]; omega)]
  rfl

/-- The number of chunks is the ceiling of length / 1000. -/
theorem chunks1000_length (l : List α) :
    (chunks1000 l).length = (l.length + 999) / 1000 := by
  suffices H : ∀ (n : ℕ) (l : List α), l.length = n →
      (chunks1000 l).length = (l.length + 999) / 1000 from H l.length l rfl
  intro n
  induction n using Nat.strong_induction_on with
  | _ n ih =>
    intro l hl
    by_cases he : l.isEmpty
    · have : l = [] := List.isEmpty_iff.mp he
      subst this
      simp [chunks1000, chunks1000Aux]
    · rw [chunks1000_cons l he]
      have hpos : 0 < l.length := by
        cases l with
        | nil => simp at he
        | cons a t => simp
      have hdrop : (l.drop 1000).length = l.length - 1000 := by
        simp [List.length_drop]
      have := ih (l.length - 1000) (by omega) (l.drop 1000) hdrop
      simp only [List.length_cons, this, hdrop]
      omega

/-- With every bulk-insert call succeeding, the loop issues one call
per chunk and reports success. -/
theorem insertLoop_all_ok (exec : ℕ → Bool) (hok : ∀ i, exec i = true) :
    ∀ (chunks : List (List α)) (idx : ℕ),
      insertLoop exec chunks idx = (true, chunks.length) := by
  intro chunks
  induction chunks with
  | nil => intro idx; rfl
  | cons c rest ih =>
    intro idx
    simp [insertLoop, hok idx, ih (idx + 1)]

/-- If some chunk in range fails, the loop reports failure. -/
theorem insertLoop_fails (exec : ℕ → Bool) :
    ∀ (chunks : List (List α)) (idx : ℕ),
      (∃ j, j < chunks.length ∧ exec (idx + j) = false) →
      (insertLoop exec chunks idx).1 = false := by
  intro chunks
  induction chunks with
  | nil =>
    intro idx ⟨j, hj, _⟩
    simp at hj
  | cons c rest ih =>
    intro idx ⟨j, hj, hfail⟩
    by_cases h0 : exec idx = true
    · have hjpos : j ≠ 0 := by
        intro h; subst h; simp at hfail; rw [h0] at hfail; exact absurd hfail (by simp)
      obtain ⟨j', rfl⟩ : ∃ j', j = j' + 1 := ⟨j - 1, by omega⟩
      have := ih (idx + 1) ⟨j', by simpa using Nat.lt_of_succ_lt_succ (by simpa using hj),
        by rw [show idx + 1 + j' = idx + (j' + 1) by omega]; exact hfail⟩
      simp [insertLoop, h0, this]
    · have : exec idx = false := by
        cases hx : exec idx
        · rfl
        · exact absurd hx h0
      simp [insertLoop, this]

/-- C6: with a chunk bound of 1000, the sink issues exactly
ceil(n/1000) sequential bulk-insert calls when every call succeeds; a
zero-length input issues no calls and returns success; and a failed
chunk write fails the whole sink call. -/
theorem insert_batch_chunk_spec :
    (∀ exec : ℕ → Bool, insert_batch ([] : List TickRecord) exec = (true, 0)) ∧
    (∀ (records : List TickRecord) (exec : ℕ → Bool), (∀ i, exec i = true) →
      insert_batch records exec = (true, (records.length + 999) / 1000)) ∧
    (∀ (records : List TickRecord) (exec : ℕ → Bool),
      (∃ i, i < (records.length + 999) / 1000 ∧ exec i = false) →
      (insert_batch records exec).1 = false) := by
  refine ⟨fun exec => rfl, ?_, ?_⟩
  · intro records exec hok
    by_cases he : records.isEmpty
    · have : records = [] := List.isEmpty_iff.mp he
      subst this
      simp [insert_batch]
    · unfold insert_batch
      rw [if_neg he, insertLoop_all_ok exec hok (chunks1000 records) 0,
        chunks1000_length records]
  · intro records exec ⟨i, hi, hfail⟩
    by_cases he : records.isEmpty
    · have : records = [] := List.isEmpty_iff.mp he
      subst this
      simp at hi
    · unfold insert_batch
      rw [if_neg he]
      exact insertLoop_fails exec (chunks1000 records) 0
        ⟨i, by rw [chunks1000_length records]; exact hi, by simpa using hfail⟩

/-- A sample enriched record for concrete sink inputs. -/
def sampleRecord : TickRecord :=
  enrichTick "EURUSD" 0 0 ⟨0, 1 / 100000, 2 / 100000, 0, 0⟩

/-- Witness for C6: 2,500 records with a chunk bound of 1,000 issue
exactly 3 bulk-insert calls (the spec's Scenario C). -/
theorem insert_batch_chunk_spec_witness :
    insert_batch (List.replicate 2500 sampleRecord) (fun _ => true) = (true, 3) := by
  have h := insert_batch_chunk_spec.2.1 (List.replicate 2500 sampleRecord)
    (fun _ => true) (fun _ => rfl)
  rw [List.length_replicate] at h
  norm_num at h
  exact h

/-! ## Fetch client cache behaviour (C5) -/

/-- C5: `download_hour_data` checks the cache first — an exact key hit
returns the cached blob with no network call and no state change; on
a miss it issues one request, where a non-200 status, an empty body,
or a raised exception yields `None` (not found) with nothing cached;
and on a 200 response with a nonempty body the blob is cached before
being returned, so repeating the same request is a cache hit with no
further network call. -/
theorem download_hour_data_cache_first :
    ∀ (cache : FetchKey → Option (List ℕ)) (net : FetchKey → NetResult) (k : FetchKey),
      (∀ b, cache k = some b →
        download_hour_data cache net k = (some b, cache, false)) ∧
      (cache k = none → ∀ s c, net k = NetResult.ok s c →
        ¬ (s = 200 ∧ 0 < c.length) →
        download_hour_data cache net k = (none, cache, true)) ∧
      (cache k = none → net k = NetResult.err →
        download_hour_data cache net k = (none, cache, true)) ∧
      (cache k = none → ∀ c, net k = NetResult.ok 200 c → c ≠ [] →
        (download_hour_data cache net k).1 = some c ∧
        (download_hour_data cache net k).2.1 k = some c ∧
        (download_hour_data cache net k).2.2 = true ∧
        download_hour_data (download_hour_data cache net k).2.1 net k =
          (some c, (download_hour_data cache net k).2.1, false)) := by
  intro cache net k
  refine ⟨?_, ?_, ?_, ?_⟩
  · intro b hb
    simp [download_hour_data, hb]
  · intro hc s c hn hbad
    simp [download_hour_data, hc, hn, hbad]
  · intro hc hn
    simp [download_hour_data, hc, hn]
  · intro hc c hn hne
    have hgood : (200 = 200 ∧ 0 < c.length) := ⟨rfl, List.length_pos.mpr hne⟩
    have h1 : download_hour_data cache net k =
        (some c, fun k' => if k' = k then some c else cache k', true) := by
      simp [download_hour_data, hc, hn, hgood.2]
    refine ⟨by rw [h1], by rw [h1]; simp, by rw [h1], ?_⟩
    rw [h1]
    simp [download_hour_data]

/-- Concrete cache/network functions for the C5 witness. -/
def emptyCache : FetchKey → Option (List ℕ) := fun _ => none

/-- A network that answers 200 with a one-byte body everywhere. -/
def netOk : FetchKey → NetResult := fun _ => NetResult.ok 200 [7]

/-- Witness for C5: a miss followed by a 200 response caches the blob,
and the repeated request is served from cache with no network call. -/
theorem download_hour_data_cache_first_witness :
    (download_hour_data emptyCache netOk ("EURUSD", 0, 0)).1 = some [7] ∧
    (download_hour_data emptyCache netOk ("EURUSD", 0, 0)).2.1 ("EURUSD", 0, 0) = some [7] ∧
    (download_hour_data emptyCache netOk ("EURUSD", 0, 0)).2.2 = true ∧
    download_hour_data (download_hour_data emptyCache netOk ("EURUSD", 0, 0)).2.1
        netOk ("EURUSD", 0, 0) =
      (some [7], (download_hour_data emptyCache netOk ("EURUSD", 0, 0)).2.1, false) :=
  (download_hour_data_cache_first emptyCache netOk ("EURUSD", 0, 0)).2.2.2
    rfl [7] rfl (by decide)

/-! ## Record enricher (C1) -/

/-- A tick the enricher drops fails `validTick`. -/
theorem validTick_false_of_invalid (t : RawTick)
    (hc : t.bid ≤ 0 ∨ t.ask ≤ 0 ∨ t.bid ≥ t.ask) : validTick t = false := by
  unfold validTick
  rcases hc with h | h | h
  · simp [not_lt.mpr h]
  · simp [not_lt.mpr h]
  · simp [not_lt.mpr h]

/-- A tick the enricher keeps passes `validTick`. -/
theorem validTick_true_of_valid (t : RawTick)
    (hc : ¬ (t.bid ≤ 0 ∨ t.ask ≤ 0 ∨ t.bid ≥ t.ask)) : validTick t = true := by
  push_neg at hc
  unfold validTick
  simp [hc.1, hc.2.1, hc.2.2]

/-- The enrichment loop is exactly filter-then-map. -/
theorem processTicksLoop_eq_filter_map (sym : String) (day hour : ℕ) :
    ∀ l : List RawTick,
      processTicksLoop sym day hour l =
        (l.filter validTick).map (enrichTick sym day hour) := by
  intro l
  induction l with
  | nil => rfl
  | cons t rest ih =>
    by_cases hc : t.bid ≤ 0 ∨ t.ask ≤ 0 ∨ t.bid ≥ t.ask
    · rw [show processTicksLoop sym day hour (t :: rest) =
          processTicksLoop sym day hour rest by simp [processTicksLoop, hc]]
      rw [ih, List.filter_cons, validTick_false_of_invalid t hc]
      simp
    · rw [show processTicksLoop sym day hour (t :: rest) =
          enrichTick sym day hour t :: processTicksLoop sym day hour rest by
            simp [processTicksLoop, hc]]
      rw [ih, List.filter_cons, validTick_true_of_valid t hc]
      simp

/-- C1: `process_hour_ticks` outputs exactly the decoded ticks with
bid > 0, ask > 0 and bid < ask, in input order (so output length is
at most input length); each retained record carries timestamp
date+hour(UTC) plus the tick's millisecond offset, mid price
(bid+ask)/2, spread ask−bid and volume bid_volume+ask_volume; ticks
failing the check are dropped without error. -/
theorem process_hour_ticks_filter_enrich :
    ∀ (sym : String) (day hour : ℕ) (bs : List ℕ),
      process_hour_ticks sym day hour (some bs) =
        ((parseTicks bs).filter validTick).map (enrichTick sym day hour) ∧
      (process_hour_ticks sym day hour (some bs)).length ≤ (parseTicks bs).length ∧
      (∀ t ∈ parseTicks bs, validTick t = true →
        enrichTick sym day hour t ∈ process_hour_ticks sym day hour (some bs) ∧
        (enrichTick sym day hour t).timestampMs =
          day * 86400000 + hour * 3600000 + t.timeDelta ∧
        (enrichTick sym day hour t).price = (t.bid + t.ask) / 2 ∧
        (enrichTick sym day hour t).spread = t.ask - t.bid ∧
        (enrichTick sym day hour t).volume = t.bidVolume + t.askVolume) := by
  intro sym day hour bs
  have hmain : process_hour_ticks sym day hour (some bs) =
      ((parseTicks bs).filter validTick).map (enrichTick sym day hour) := by
    unfold process_hour_ticks decompress_tick_data
    by_cases he : parseTicks bs = []
    · simp [he]
    · rw [if_neg he, processTicksLoop_eq_filter_map]
  refine ⟨hmain, ?_, ?_⟩
  · rw [hmain, List.length_map]
    exact List.length_filter_le _ _
  · intro t ht hv
    refine ⟨?_, rfl, rfl, rfl, rfl⟩
    rw [hmain]
    exact List.mem_map_of_mem _ (List.mem_filter.mpr ⟨ht, hv⟩)

/-- A synthetic hour blob holding one valid tick: offset 0 ms, wire
ask 2 (price 2/100000), wire bid 1 (price 1/100000), zero volumes. -/
def oneTickBytes : List ℕ :=
  [0, 0, 0, 0, 0, 0, 0, 2, 0, 0, 0, 1, 0, 0, 0, 0, 0, 0, 0, 0]

/-- The tick `oneTickBytes` decodes to. -/
def oneTick : RawTick := parseRecord oneTickBytes

/-- Witness for C1 on a concrete one-tick blob. -/
theorem process_hour_ticks_filter_enrich_witness :
    (process_hour_ticks "EURUSD" 0 0 (some oneTickBytes)).length ≤
      (parseTicks oneTickBytes).length ∧
    (enrichTick "EURUSD" 0 0 oneTick).price = (oneTick.bid + oneTick.ask) / 2 ∧
    (enrichTick "EURUSD" 0 0 oneTick).volume =
      oneTick.bidVolume + oneTick.askVolume ∧
    enrichTick "EURUSD" 0 0 oneTick ∈
      process_hour_ticks "EURUSD" 0 0 (some oneTickBytes) := by
  have h := process_hour_ticks_filter_enrich "EURUSD" 0 0 oneTickBytes
  have hmem := h.2.2 oneTick (by rw [show parseTicks oneTickBytes = [oneTick] from rfl]; simp)
    (by norm_num [validTick, oneTick, parseRecord, oneTickBytes, beU32, List.getD])
  exact ⟨h.2.1, hmem.2.2.1, hmem.2.2.2.2, hmem.1⟩

/-! ## Decoder record count, round-trip (C2) and field order (C9) -/

/-- Fuel irrelevance for `parseTicksAux`: any fuel at least the blob
length parses the same ticks. -/
theorem parseTicksAux_congr :
    ∀ (f1 f2 : ℕ) (bs : List ℕ), bs.length ≤ f1 → bs.length ≤ f2 →
      parseTicksAux f1 bs = parseTicksAux f2 bs := by
  intro f1
  induction f1 with
  | zero =>
    intro f2 bs h1 _
    have hl : bs = [] := List.length_eq_zero.mp (Nat.le_zero.mp h1)
    subst hl
    cases f2 <;> simp [parseTicksAux]
  | succ f ih =>
    intro f2 bs h1 h2
    cases f2 with
    | zero =>
      have hl : bs = [] := List.length_eq_zero.mp (Nat.le_zero.mp h2)
      subst hl
      simp [parseTicksAux]
    | succ f2' =>
      by_cases h20 : 20 ≤ bs.length
      · simp only [parseTicksAux, h20, if_pos]
        rw [ih f2' (bs.drop 20) (by simp only [List.length_drop]; omega)
          (by simp only [List.length_drop]; omega)]
      · simp [parseTicksAux, h20]

/-- A blob of at least 20 bytes parses to its first record followed by
the parse of the rest. -/
theorem parseTicks_cons (bs : List ℕ) (h : 20 ≤ bs.length) :
    parseTicks bs = parseRecord (bs.take 20) :: parseTicks (bs.drop 20) := by
  unfold parseTicks
  obtain ⟨n, hn⟩ : ∃ n, bs.length = n + 1 := ⟨bs.length - 1, by omega⟩
  rw [hn]
  simp only [parseTicksAux, h, if_pos]
  rw [parseTicksAux_congr n (bs.drop 20).length (bs.drop 20)
    (by simp only [List.length_drop]; omega) le_rfl]

/-- A blob shorter than one record parses to nothing (the trailing
partial record is discarded). -/
theorem parseTicks_short (bs : List ℕ) (h : bs.length < 20) :
    parseTicks bs = [] := by
  unfold parseTicks
  cases hn : bs.length with
  | zero => simp [parseTicksAux]
  | succ n =>
    simp only [parseTicksAux]
    rw [if_neg (by omega)]

/-- The decoder returns exactly ⌊length/20⌋ tuples. -/
theorem parseTicks_length (bs : List ℕ) :
    (parseTicks bs).length = bs.length / 20 := by
  suffices H : ∀ (n : ℕ) (bs : List ℕ), bs.length = n →
      (parseTicks bs).length = bs.length / 20 from H bs.length bs rfl
  intro n
  induction n using Nat.strong_induction_on with
  | _ n ih =>
    intro bs hl
    by_cases h : 20 ≤ bs.length
    · rw [parseTicks_cons bs h]
      have hd : (bs.drop 20).length = bs.length - 20 := by
        simp [List.length_drop]
      have := ih (bs.length - 20) (by omega) (bs.drop 20) hd
      simp only [List.length_cons, this, hd]
      omega
    · rw [parseTicks_short bs (by omega)]
      simp only [List.length_nil]
      omega

/-- Encoding via `encodeBE32` inverts to `beU32` below 2^32. -/
theorem beU32_encodeBE32 (n : ℕ) (h : n < 2 ^ 32) :
    beU32 (n / 2 ^ 24 % 256) (n / 2 ^ 16 % 256) (n / 2 ^ 8 % 256) (n % 256) = n := by
  unfold beU32
  omega

/-- An encoded wire record is 20 bytes. -/
theorem encodeWire_length (w : WireTick) : (encodeWire w).length = 20 := by
  simp [encodeWire, encodeBE32]

/-- Decoding the 20-byte encoding of a wire record recovers its
denotation — in particular the bid/ask and volume swaps. -/
theorem parseRecord_encodeWire (w : WireTick) (hw : w.valid) :
    parseRecord (encodeWire w) = wireToRaw w := by
  obtain ⟨h1, h2, h3, h4, h5⟩ := hw
  simp only [encodeWire, encodeBE32, List.cons_append, List.nil_append]
  unfold parseRecord wireToRaw
  simp only [List.getD_cons_zero, List.getD_cons_succ]
  rw [beU32_encodeBE32 w.timeDelta h1, beU32_encodeBE32 w.askScaled h2,
    beU32_encodeBE32 w.bidScaled h3, beU32_encodeBE32 w.askVolBits h4,
    beU32_encodeBE32 w.bidVolBits h5]

/-- Decoding a synthetic blob of N encoded wire records (plus any
partial trailing record) yields exactly their N denotations in
order. -/
theorem parseTicks_roundtrip :
    ∀ (ws : List WireTick) (rest : List ℕ),
      (∀ w ∈ ws, w.valid) → rest.length < 20 →
      parseTicks (ws.flatMap encodeWire ++ rest) = ws.map wireToRaw := by
  intro ws
  induction ws with
  | nil =>
    intro rest _ hr
    simp only [List.flatMap_nil, List.nil_append, List.map_nil]
    exact parseTicks_short rest hr
  | cons w ws ih =>
    intro rest hv hr
    have hl : (encodeWire w).length = 20 := encodeWire_length w
    rw [show (w :: ws).flatMap encodeWire ++ rest =
        encodeWire w ++ (ws.flatMap encodeWire ++ rest) by
      simp [List.flatMap_cons, List.append_assoc]]
    rw [parseTicks_cons _ (by simp [List.length_append, hl])]
    rw [List.take_left' hl, List.drop_left' hl]
    rw [parseRecord_encodeWire w (hv w (by simp))]
    rw [ih rest (fun x hx => hv x (by simp [hx])) hr]
    simp

/-- C2: for every successfully decompressed blob the decoder parses
consecutive fixed 20-byte big-endian records from the start, silently
discarding a trailing partial record, and returns exactly ⌊length/20⌋
tuples in order; decoding a synthetic blob built from N known wire
tuples yields exactly those N tuples, in order. -/
theorem decompress_count_and_roundtrip :
    (∀ bs : List ℕ,
      (decompress_tick_data (some bs)).length = bs.length / 20) ∧
    (∀ (ws : List WireTick) (rest : List ℕ),
      (∀ w ∈ ws, w.valid) → rest.length < 20 →
      decompress_tick_data (some (ws.flatMap encodeWire ++ rest)) =
        ws.map wireToRaw) := by
  constructor
  · intro bs
    exact parseTicks_length bs
  · intro ws rest hv hr
    show parseTicks _ = _
    exact parseTicks_roundtrip ws rest hv hr

/-- A first sample wire record (bid 1.00000, ask 1.10000). -/
def wireEx1 : WireTick :=
  { timeDelta := 1000, askScaled := 110000, bidScaled := 100000
    askVolBits := 0, bidVolBits := 0 }

/-- A second sample wire record (bid 1.15000, ask 1.20000). -/
def wireEx2 : WireTick :=
  { timeDelta := 2000, askScaled := 120000, bidScaled := 115000
    askVolBits := 0, bidVolBits := 0 }

/-- Witness for C2: a synthetic 2-record blob with a 3-byte trailing
fragment decodes to exactly the two denoted tuples. -/
theorem decompress_count_and_roundtrip_witness :
    decompress_tick_data
        (some ([wireEx1, wireEx2].flatMap encodeWire ++ [5, 5, 5])) =
      [wireToRaw wireEx1, wireToRaw wireEx2] := by
  have h := decompress_count_and_roundtrip.2 [wireEx1, wireEx2] [5, 5, 5]
    (by intro w hw; fin_cases hw <;> decide) (by decide)
  simpa using h

/-- The i-th decoded tuple comes from the 20 bytes at offset 20·i
(optional-indexing form). -/
theorem parseTicks_getElem? :
    ∀ (i : ℕ) (bs : List ℕ), i < (parseTicks bs).length →
      (parseTicks bs)[i]? = some (parseRecord ((bs.drop (20 * i)).take 20)) := by
  intro i
  induction i with
  | zero =>
    intro bs h
    have h20 : 20 ≤ bs.length := by
      by_contra hc
      rw [parseTicks_short bs (by omega)] at h
      simp at h
    rw [parseTicks_cons bs h20]
    simp
  | succ i ih =>
    intro bs h
    have h20 : 20 ≤ bs.length := by
      by_contra hc
      rw [parseTicks_short bs (by omega)] at h
      simp at h
    have hlt : i < (parseTicks (bs.drop 20)).length := by
      have h2 := h
      rw [parseTicks_cons bs h20] at h2
      simpa using h2
    rw [parseTicks_cons bs h20]
    simp only [List.getElem?_cons_succ]
    rw [ih (bs.drop 20) hlt, List.drop_drop]
    rw [show 20 + 20 * i = 20 * (i + 1) by ring]

/-- The i-th decoded tuple comes from the 20 bytes at offset 20·i. -/
theorem parseTicks_get (i : ℕ) (bs : List ℕ) (h : i < (parseTicks bs).length) :
    (parseTicks bs).get ⟨i, h⟩ = parseRecord ((bs.drop (20 * i)).take 20) := by
  have h1 := parseTicks_getElem? i bs h
  have h2 : (parseTicks bs)[i]? = some ((parseTicks bs).get ⟨i, h⟩) := by
    rw [List.getElem?_eq_getElem h]
    simp [List.get_eq_getElem]
  rw [h1] at h2
  exact (Option.some_injective _ h2).symm

/-- Element access through take-of-drop windows. -/
theorem getD_take_drop (l : List ℕ) (n j : ℕ) (hj : j < 20) :
    ((l.drop n).take 20).getD j 0 = l.getD (n + j) 0 := by
  simp [List.getD_eq_getElem?_getD, List.getElem?_take, hj, List.getElem?_drop]

/-- C9: the i-th tuple the decoder returns is ordered (time-offset,
bid, ask, bid-volume, ask-volume): its `timeDelta` is the first u32 of
the i-th 20-byte wire record, its second component (bid) is the
*third* u32 divided by 100000, its third component (ask) is the
*second* u32 divided by 100000, and the volumes are likewise swapped
from their wire positions. -/
theorem parseTicks_field_sources :
    ∀ (bs : List ℕ) (i : ℕ) (h : i < (parseTicks bs).length),
      ((parseTicks bs).get ⟨i, h⟩).timeDelta =
        beU32 (bs.getD (20 * i) 0) (bs.getD (20 * i + 1) 0)
          (bs.getD (20 * i + 2) 0) (bs.getD (20 * i + 3) 0) ∧
      ((parseTicks bs).get ⟨i, h⟩).bid =
        (beU32 (bs.getD (20 * i + 8) 0) (bs.getD (20 * i + 9) 0)
          (bs.getD (20 * i + 10) 0) (bs.getD (20 * i + 11) 0) : ℚ) / 100000 ∧
      ((parseTicks bs).get ⟨i, h⟩).ask =
        (beU32 (bs.getD (20 * i + 4) 0) (bs.getD (20 * i + 5) 0)
          (bs.getD (20 * i + 6) 0) (bs.getD (20 * i + 7) 0) : ℚ) / 100000 ∧
      ((parseTicks bs).get ⟨i, h⟩).bidVolume =
        decodeF32 (beU32 (bs.getD (20 * i + 16) 0) (bs.getD (20 * i + 17) 0)
          (bs.getD (20 * i + 18) 0) (bs.getD (20 * i + 19) 0)) ∧
      ((parseTicks bs).get ⟨i, h⟩).askVolume =
        decodeF32 (beU32 (bs.getD (20 * i + 12) 0) (bs.getD (20 * i + 13) 0)
          (bs.getD (20 * i + 14) 0) (bs.getD (20 * i + 15) 0)) := by
  intro bs i h
  rw [parseTicks_get i bs h]
  unfold parseRecord
  dsimp only
  refine ⟨?_, ?_, ?_, ?_, ?_⟩
  · rw [getD_take_drop bs (20 * i) 0 (by omega), getD_take_drop bs (20 * i) 1 (by omega),
      getD_take_drop bs (20 * i) 2 (by omega), getD_take_drop bs (20 * i) 3 (by omega),
      Nat.add_zero]
  · rw [getD_take_drop bs (20 * i) 8 (by omega), getD_take_drop bs (20 * i) 9 (by omega),
      getD_take_drop bs (20 * i) 10 (by omega), getD_take_drop bs (20 * i) 11 (by omega)]
  · rw [getD_take_drop bs (20 * i) 4 (by omega), getD_take_drop bs (20 * i) 5 (by omega),
      getD_take_drop bs (20 * i) 6 (by omega), getD_take_drop bs (20 * i) 7 (by omega)]
  · rw [getD_take_drop bs (20 * i) 16 (by omega), getD_take_drop bs (20 * i) 17 (by omega),
      getD_take_drop bs (20 * i) 18 (by omega), getD_take_drop bs (20 * i) 19 (by omega)]
  · rw [getD_take_drop bs (20 * i) 12 (by omega), getD_take_drop bs (20 * i) 13 (by omega),
      getD_take_drop bs (20 * i) 14 (by omega), getD_take_drop bs (20 * i) 15 (by omega)]

/-- Index into the one-tick example blob. -/
def oneTickIdx : Fin (parseTicks oneTickBytes).length :=
  ⟨0, by rw [show parseTicks oneTickBytes = [oneTick] from rfl]; simp⟩

/-- Witness for C9 on the one-tick blob: the decoded tuple's bid comes
from bytes 8-11 (the third u32) and its ask from bytes 4-7 (the
second u32). -/
theorem parseTicks_field_sources_witness :
    ((parseTicks oneTickBytes).get oneTickIdx).bid =
      (beU32 (oneTickBytes.getD 8 0) (oneTickBytes.getD 9 0)
        (oneTickBytes.getD 10 0) (oneTickBytes.getD 11 0) : ℚ) / 100000 ∧
    ((parseTicks oneTickBytes).get oneTickIdx).ask =
      (beU32 (oneTickBytes.getD 4 0) (oneTickBytes.getD 5 0)
        (oneTickBytes.getD 6 0) (oneTickBytes.getD 7 0) : ℚ) / 100000 := by
  have h := parseTicks_field_sources oneTickBytes 0 oneTickIdx.isLt
  exact ⟨by simpa using h.2.1, by simpa using h.2.2.1⟩

/-! ## Loader progress cleanup on success (C10) -/

/-- After the conditional delete, the job key is absent whatever the
mapping held. -/
theorem cleanup_lookup (p : String → Option ℕ) (jk : String) :
    (match p jk with
      | some _ => Loader.eraseKey p jk
      | none => p) jk = none := by
  cases hjk : p jk with
  | none => simp [hjk]
  | some v => simp [hjk, Loader.eraseKey]

/-- A run started against a mapping with no entry for its job key
starts from the beginning of the range. -/
theorem startedFrom_of_no_entry (env : Env) (sym : String) (s e bd : ℕ)
    (p : String → Option ℕ) (st : RunSt)
    (h : p (rangeKey sym s e) = none) :
    (Loader.process_date_range env sym s e bd p st).startedFrom = s := by
  simp only [Loader.process_date_range, h]

/-- C10: whenever a range load finishes with zero failed batches, the
loader deletes that job's key from the progress mapping and persists
the deletion, so a subsequent run of the identical (symbol, start,
end) range finds no progress entry and starts again from the
beginning of the range rather than being skipped as complete. -/
theorem process_date_range_clears_progress :
    ∀ (env : Env) (sym : String) (s e bd : ℕ)
      (p0 : String → Option ℕ) (st0 : RunSt),
      (Loader.process_date_range env sym s e bd p0 st0).failed = [] →
      (Loader.process_date_range env sym s e bd p0 st0).progress
          (rangeKey sym s e) = none ∧
      (Loader.process_date_range env sym s e bd
          (Loader.process_date_range env sym s e bd p0 st0).progress
          (Loader.process_date_range env sym s e bd p0 st0).st).startedFrom = s := by
  intro env sym s e bd p0 st0 hfail
  have h1 : (Loader.process_date_range env sym s e bd p0 st0).progress
      (rangeKey sym s e) = none := by
    simp only [Loader.process_date_range] at hfail ⊢
    rw [hfail]
    simp only [List.isEmpty_nil, if_true]
    exact cleanup_lookup _ _
  exact ⟨h1, startedFrom_of_no_entry env sym s e bd _ _ h1⟩

/-- An environment with no vendor data at all (every request errors),
used for concrete end-to-end runs. -/
def envNoData : Env :=
  { net := fun _ => NetResult.err
    decomp := fun _ => none
    insChunk := fun _ => true
    ins := fun _ => true
    ilp := fun _ => true }

/-- A progress mapping holding a resume entry for the witness job. -/
def progressEx : String → Option ℕ :=
  fun k => if k = rangeKey "EURUSD" 0 1 then some 0 else none

set_option maxRecDepth 100000 in
/-- Witness for C10: a concrete 2-day run with no failures deletes its
progress entry, and the repeated run starts from day 0. -/
theorem process_date_range_clears_progress_witness :
    (Loader.process_date_range envNoData "EURUSD" 0 1 3 progressEx emptySt).progress
        (rangeKey "EURUSD" 0 1) = none ∧
    (Loader.process_date_range envNoData "EURUSD" 0 1 3
        (Loader.process_date_range envNoData "EURUSD" 0 1 3 progressEx emptySt).progress
        (Loader.process_date_range envNoData "EURUSD" 0 1 3 progressEx emptySt).st).startedFrom
      = 0 :=
  process_date_range_clears_progress envNoData "EURUSD" 0 1 3 progressEx emptySt rfl

/-! ## Manager idempotence (C8) -/

/-- The hour worker never touches the persisted completed-batch
list. -/
theorem process_single_hour_completed (env : Env) (st : RunSt)
    (sym : String) (day hour : ℕ) :
    (Manager.process_single_hour env st sym day hour).1.completed = st.completed := by
  unfold Manager.process_single_hour
  dsimp only
  cases (download_hour_data st.cache env.net (sym, day, hour)).1 with
  | none => rfl
  | some blob =>
    dsimp only
    split_ifs <;> rfl

/-- The batch worker pool never touches the completed-batch list. -/
theorem runBatch_completed_aux (env : Env) (sym : String) :
    ∀ (tasks : List (ℕ × ℕ)) (acc : RunSt × ℕ × ℕ),
      ((tasks.foldl
        (fun acc task =>
          let r := Manager.process_single_hour env acc.1 sym task.1 task.2
          match r.2 with
          | some n => (r.1, acc.2.1, acc.2.2 + n)
          | none => (r.1, acc.2.1 + 1, acc.2.2)) acc).1).completed =
        acc.1.completed := by
  intro tasks
  induction tasks with
  | nil => intro acc; rfl
  | cons t rest ih =>
    intro acc
    rw [List.foldl_cons, ih]
    dsimp only
    cases (Manager.process_single_hour env acc.1 sym t.1 t.2).2 with
    | none => exact process_single_hour_completed env acc.1 sym t.1 t.2
    | some n => exact process_single_hour_completed env acc.1 sym t.1 t.2

/-- Function `runBatch` leaves the completed-batch list unchanged. -/
theorem runBatch_completed (env : Env) (sym : String) (bstart bend : ℕ)
    (st : RunSt) :
    (Manager.runBatch env sym bstart bend st).1.completed = st.completed := by
  unfold Manager.runBatch
  exact runBatch_completed_aux env sym (Manager.batchTasks bstart bend) (st, 0, 0)

/-- The completed-batch list only grows across the batch loop. -/
theorem ddrLoop_completed_mono (env : Env) (sym : String) :
    ∀ (batches : List (ℕ × ℕ)) (st : RunSt) (f : List (ℕ × ℕ)) (k : String),
      k ∈ st.completed → k ∈ (Manager.ddrLoop env sym batches st f).1.completed := by
  intro batches
  induction batches with
  | nil =>
    intro st f k hk
    simpa [Manager.ddrLoop] using hk
  | cons b rest ih =>
    intro st f k hk
    obtain ⟨bs, be⟩ := b
    simp only [Manager.ddrLoop]
    split
    · exact ih st f k hk
    · split
      · apply ih
        simp only [runBatch_completed]
        exact List.mem_append_left _ hk
      · apply ih
        rw [runBatch_completed]
        exact hk

/-- The failed list only grows across the batch loop, by appending. -/
theorem ddrLoop_failed_extends (env : Env) (sym : String) :
    ∀ (batches : List (ℕ × ℕ)) (st : RunSt) (f : List (ℕ × ℕ)),
      ∃ g, (Manager.ddrLoop env sym batches st f).2 = f ++ g := by
  intro batches
  induction batches with
  | nil => intro st f; exact ⟨[], by simp [Manager.ddrLoop]⟩
  | cons b rest ih =>
    intro st f
    obtain ⟨bs, be⟩ := b
    simp only [Manager.ddrLoop]
    split
    · exact ih st f
    · split
      · exact ih _ f
      · obtain ⟨g, hg⟩ := ih _ (f ++ [(bs, be)])
        exact ⟨(bs, be) :: g, by rw [hg]; simp⟩

/-- If the run reports no failed batches, every batch's key ends up in
the completed list. -/
theorem ddrLoop_all_completed (env : Env) (sym : String) :
    ∀ (batches : List (ℕ × ℕ)) (st : RunSt) (f : List (ℕ × ℕ)),
      (Manager.ddrLoop env sym batches st f).2 = f →
      ∀ b ∈ batches,
        rangeKey sym b.1 b.2 ∈ (Manager.ddrLoop env sym batches st f).1.completed := by
  intro batches
  induction batches with
  | nil => intro st f _ b hb; simp at hb
  | cons bb rest ih =>
    intro st f hf b hb
    obtain ⟨bs, be⟩ := bb
    simp only [Manager.ddrLoop] at hf ⊢
    rcases List.mem_cons.mp hb with hb | hb
    · -- b is the head batch
      subst hb
      split at hf
      case isTrue hmem =>
        rw [if_pos hmem]
        exact ddrLoop_completed_mono env sym rest st f _ hmem
      case isFalse hmem =>
        rw [if_neg hmem]
        split at hf
        case isTrue herr =>
          rw [if_pos herr]
          apply ddrLoop_completed_mono
          simp only [runBatch_completed]
          exact List.mem_append_right _ (by simp)
        case isFalse herr =>
          exfalso
          obtain ⟨g, hg⟩ := ddrLoop_failed_extends env sym rest
            (Manager.runBatch env sym bs be st).1 (f ++ [(bs, be)])
          rw [hg] at hf
          have h2 := congrArg List.length hf
          simp only [List.length_append, List.length_cons, List.length_nil] at h2
          omega
    · -- b is in the tail
      split at hf
      case isTrue hmem =>
        rw [if_pos hmem]
        exact ih st f hf b hb
      case isFalse hmem =>
        rw [if_neg hmem]
        split at hf
        case isTrue herr =>
          rw [if_pos herr]
          exact ih _ f hf b hb
        case isFalse herr =>
          exfalso
          obtain ⟨g, hg⟩ := ddrLoop_failed_extends env sym rest
            (Manager.runBatch env sym bs be st).1 (f ++ [(bs, be)])
          rw [hg] at hf
          have h2 := congrArg List.length hf
          simp only [List.length_append, List.length_cons, List.length_nil] at h2
          omega

/-- A batch loop over batches already marked complete is the
identity. -/
theorem ddrLoop_skip_all (env : Env) (sym : String) :
    ∀ (batches : List (ℕ × ℕ)) (st : RunSt) (f : List (ℕ × ℕ)),
      (∀ b ∈ batches, rangeKey sym b.1 b.2 ∈ st.completed) →
      Manager.ddrLoop env sym batches st f = (st, f) := by
  intro batches
  induction batches with
  | nil => intro st f _; rfl
  | cons b rest ih =>
    intro st f hall
    obtain ⟨bs, be⟩ := b
    simp only [Manager.ddrLoop]
    rw [if_pos (hall (bs, be) (by simp))]
    exact ih st f (fun b hb => hall b (by simp [hb]))

/-- C8: if a range load reports zero failed batches, every batch key
is marked complete, and running the identical load again from the
resulting state is a no-op: it returns the same state unchanged — in
particular the same store contents and the same network-request count
(zero new fetches) — with every batch skipped via the progress
record. -/
theorem download_date_range_idempotent :
    ∀ (env : Env) (sym : String) (s e bd : ℕ) (st0 : RunSt),
      (Manager.download_date_range env sym s e bd st0).2 = [] →
      (∀ b ∈ Manager.mkBatches s e bd,
        rangeKey sym b.1 b.2 ∈
          (Manager.download_date_range env sym s e bd st0).1.completed) ∧
      Manager.download_date_range env sym s e bd
          (Manager.download_date_range env sym s e bd st0).1 =
        ((Manager.download_date_range env sym s e bd st0).1, []) ∧
      (Manager.download_date_range env sym s e bd
          (Manager.download_date_range env sym s e bd st0).1).1.netCalls =
        (Manager.download_date_range env sym s e bd st0).1.netCalls ∧
      (Manager.download_date_range env sym s e bd
          (Manager.download_date_range env sym s e bd st0).1).1.store =
        (Manager.download_date_range env sym s e bd st0).1.store ∧
      (Manager.download_date_range env sym s e bd
          (Manager.download_date_range env sym s e bd st0).1).1.ilpStore =
        (Manager.download_date_range env sym s e bd st0).1.ilpStore := by
  intro env sym s e bd st0 hfail
  have hall : ∀ b ∈ Manager.mkBatches s e bd,
      rangeKey sym b.1 b.2 ∈
        (Manager.download_date_range env sym s e bd st0).1.completed := by
    intro b hb
    exact ddrLoop_all_completed env sym (Manager.mkBatches s e bd) st0 [] hfail b hb
  have hskip : Manager.download_date_range env sym s e bd
      (Manager.download_date_range env sym s e bd st0).1 =
      ((Manager.download_date_range env sym s e bd st0).1, []) := by
    unfold Manager.download_date_range
    exact ddrLoop_skip_all env sym (Manager.mkBatches s e bd) _ [] hall
  exact ⟨hall, hskip, by rw [hskip], by rw [hskip], by rw [hskip]⟩

set_option maxRecDepth 400000 in
/-- Witness for C8: a concrete 2-day load (one 3-day batch) with no
vendor data completes with no failures; re-running it from the
resulting state returns that state unchanged with no failed
batches. -/
theorem download_date_range_idempotent_witness :
    Manager.download_date_range envNoData "EURUSD" 0 1 3
        (Manager.download_date_range envNoData "EURUSD" 0 1 3 emptySt).1 =
      ((Manager.download_date_range envNoData "EURUSD" 0 1 3 emptySt).1, []) :=
  (download_date_range_idempotent envNoData "EURUSD" 0 1 3 emptySt rfl).2.1
